import Mathlib

/-!
# Verification of the CBZ-to-PDF batch converter

Shallow embedding of the core logic of `CBZtoPDF.py` and the GPU variant
(`CBZtoPDF - GPU.py`): the natural filename sort key `_natural_key`, the
image transform `optimize_image`, the mode normalisation of
`process_image_gpu`, the per-archive conversion `cbz_to_pdf`, and the
top-level driver `main`.

Modelling conventions:
* Python strings are modelled as `List Char`; character comparison is by
  code point, `str.lower` by `Char.toLower` (the filenames involved are
  treated at ASCII granularity, matching `re.split(r"(\d+)", ...)` whose
  digit class is `'0'`-`'9'` on such input).
* Python's `list.sort(key=...)` is a stable sort by `<` on keys; it is
  modelled by the stable, structurally recursive `List.insertionSort`
  with the preorder "not (key of second) < (key of first)".
* A decoded PIL image is abstracted to its width, height and mode; the
  archive supplies a `decode` map from entry name to `Option PILImage`
  (`none` models an exception while reading or decoding that entry).
* Real-number arithmetic inside PIL's `Image.thumbnail` is carried out
  exactly over rationals, written as integer operations on numerators
  and denominators.
-/

namespace CBZ

/-! ## Character and string comparison (Python code-point order) -/

/-- Three-way comparison of naturals, mirroring Python `<` / `>` on ints. -/
def natCmp (m n : Nat) : Ordering :=
  if m < n then .lt else if n < m then .gt else .eq

/-- Python compares characters by code point. -/
def charCmp (a b : Char) : Ordering := natCmp a.toNat b.toNat

/-- Lexicographic comparison of strings (Python `str` comparison):
elementwise by code point, a strict prefix is smaller. -/
def strCmp : List Char → List Char → Ordering
  | [], [] => .eq
  | [], _ :: _ => .lt
  | _ :: _, [] => .gt
  | a :: as, b :: bs =>
    match charCmp a b with
    | .eq => strCmp as bs
    | o => o

/-- Python `str.lower` applied characterwise. -/
def lowerStr (s : List Char) : List Char := s.map Char.toLower

/-! ## `_natural_key` (CBZtoPDF.py line 30-32)

```python
def _natural_key(text: str):
    return [int(tok) if tok.isdigit() else tok.lower()
            for tok in re.split(r"(\d+)", text)]
```

`re.split(r"(\d+)", text)` splits `text` at maximal digit runs and, because
the pattern is a capture group, keeps those runs: the result alternates
(possibly empty) non-digit segments with nonempty digit runs, starting and
ending with a non-digit segment.  `splitRuns` computes exactly that list,
by recursion on the first character. -/

/-- Model of `re.split(r"(\d+)", text)`: alternating non-digit segments and maximal
digit runs, the digit runs kept because the pattern captures them. -/
def splitRuns : List Char → List (List Char)
  | [] => [[]]
  | c :: cs =>
    match splitRuns cs with
    | [] => [[]]  -- never happens: `splitRuns` always returns a nonempty list
    | t :: rest =>
      if c.isDigit then
        match t, rest with
        | [], d :: rest2 => [] :: (c :: d) :: rest2
        | _, _ => [] :: [c] :: t :: rest
      else
        (c :: t) :: rest

/-- Python `tok.isdigit()`: nonempty and all digits. -/
def pyIsDigit (t : List Char) : Bool := !t.isEmpty && t.all Char.isDigit

/-- Python `int(tok)` on a digit string. -/
def digitsToNat (d : List Char) : Nat :=
  d.foldl (fun n c => n * 10 + (c.toNat - '0'.toNat)) 0

/-- One element of a natural-sort key: Python puts either an `int` or a
lowered `str` in the key list. -/
inductive Tok where
  | int (n : Nat)
  | str (s : List Char)
deriving DecidableEq

/-- Whether a key element is the string kind. -/
def Tok.isStr : Tok → Bool
  | .int _ => false
  | .str _ => true

/-- Model of `_natural_key`: split at digit runs, then turn each token into an int
(if it is all digits) or a lowercased string. -/
def naturalKey (s : List Char) : List Tok :=
  (splitRuns s).map fun t =>
    if pyIsDigit t then .int (digitsToNat t) else .str (lowerStr t)

/-- Comparison of two key elements.  Python raises `TypeError` when an
`int` meets a `str`; that failure is `none`. -/
def tokCmp : Tok → Tok → Option Ordering
  | .int m, .int n => some (natCmp m n)
  | .str a, .str b => some (strCmp a b)
  | _, _ => none

/-- Python list comparison, elementwise with the shorter list smaller on a
tie; `none` propagates a `TypeError` from an element comparison. -/
def keyCmp : List Tok → List Tok → Option Ordering
  | [], [] => some .eq
  | [], _ :: _ => some .lt
  | _ :: _, [] => some .gt
  | x :: xs, y :: ys =>
    match tokCmp x y with
    | none => none
    | some .eq => keyCmp xs ys
    | some o => some o

/-- The test `_natural_key(s) < _natural_key(t)`, the comparison `list.sort` uses. -/
def natLt (s t : List Char) : Bool :=
  keyCmp (naturalKey s) (naturalKey t) == some Ordering.lt

/-! ## Decoded images and `optimize_image` (CBZtoPDF.py lines 34-49)

A decoded PIL image is abstracted to the attributes the program inspects:
pixel dimensions and colour mode. -/

/-- A decoded raster image, reduced to the attributes `optimize_image`
reads: `img.size` and `img.mode`. -/
structure PILImage where
  width : Nat
  height : Nat
  mode : String
deriving DecidableEq

/-- Constant `MAX_IMAGE_SIZE = (1200, 1600)` (CBZtoPDF.py line 23). -/
def MAX_IMAGE_SIZE : Nat × Nat := (1200, 1600)

/-- Constant `BATCH_SIZE = 5` (CBZtoPDF.py line 22). -/
def BATCH_SIZE : Nat := 5

/-- PIL's `round_aspect(number, key)` in the branch where the box is at
least as wide as the image's aspect ratio: choose between `floor` and
`ceil` of the exact value `N / D` by the smaller aspect error (the two
errors share a denominator, so the tie-break compares `N % D` with
`D - N % D`, `min` preferring `floor` on a tie), then clamp to at least 1.
Exact rational arithmetic written over numerator `N` and denominator `D`. -/
def roundAspectFixed (N D : Nat) : Nat :=
  let f := N / D
  let c := if N % D = 0 then f else f + 1
  max (if 2 * (N % D) ≤ D then f else c) 1

/-- PIL's `round_aspect(number, key)` in the other branch, whose key is
`0 if n == 0 else abs(aspect - x / n)`: the two candidate errors have
different denominators, so `floor` wins exactly when
`(N % D) * ceil ≤ (D - N % D) * floor` (and whenever `floor = 0`, whose
key is `0`); then clamp to at least 1. -/
def roundAspectVar (N D : Nat) : Nat :=
  let f := N / D
  let c := if N % D = 0 then f else f + 1
  max (if f = 0 then f else if N % D * c ≤ (D - N % D) * f then f else c) 1

/-- PIL `Image.thumbnail((mx, my))` on a `w × h` image: no-op when the
image already fits the box; otherwise scale to the box preserving aspect
ratio. `x / y >= aspect` is `mx / my ≥ w / h`, i.e. `w * my ≤ mx * h`;
in that branch the width becomes `round_aspect(y * aspect)` with
`y * aspect = my * w / h`, else the height becomes
`round_aspect(x / aspect)` with `x / aspect = mx * h / w`. -/
def thumbnailSize (w h mx my : Nat) : Nat × Nat :=
  if w ≤ mx ∧ h ≤ my then (w, h)
  else if w * my ≤ mx * h then (roundAspectFixed (my * w) h, my)
  else (mx, roundAspectVar (mx * h) w)

/-- Model of `optimize_image`: thumbnail to `MAX_IMAGE_SIZE` when either dimension
exceeds the box, then normalise the mode — `P`/`RGBA` to `RGB`, keep `L`,
anything else to `RGB`. -/
def optimize_image (img : PILImage) : PILImage :=
  let sz :=
    if MAX_IMAGE_SIZE.1 < img.width ∨ MAX_IMAGE_SIZE.2 < img.height then
      thumbnailSize img.width img.height MAX_IMAGE_SIZE.1 MAX_IMAGE_SIZE.2
    else (img.width, img.height)
  let m :=
    if img.mode = "P" ∨ img.mode = "RGBA" then "RGB"
    else if img.mode = "L" then "L"
    else "RGB"
  ⟨sz.1, sz.2, m⟩

/-- Mode normalisation of `process_image_gpu` (GPU variant, lines 58-69):
only `P` and `RGBA` are converted to `RGB`, every other mode passes
through unchanged.  (Modelled on the deterministic CPU-device path; the
CUDA tensor round trip is skipped when the device is `cpu` and the
fallback path performs exactly this conversion as well.) -/
def gpuNormalizeMode (m : String) : String :=
  if m = "P" ∨ m = "RGBA" then "RGB" else m

/-! ## The per-archive conversion `cbz_to_pdf` (CBZtoPDF.py lines 51-128)

The archive is abstracted to its `namelist()` together with a `decode` map
giving, for each entry name, the decoded image or `none` when reading or
decoding that entry raises (the per-entry `try`/`except` then logs and
skips it). -/

/-- The recognised raster-image extensions (CBZtoPDF.py lines 55-57). -/
def IMAGE_EXTENSIONS : List (List Char) :=
  [".png".data, ".jpg".data, ".jpeg".data, ".bmp".data, ".gif".data,
   ".tif".data, ".tiff".data, ".webp".data]

/-- The test `n.lower().endswith((".png", ...))`. -/
def isImageName (n : List Char) : Bool :=
  IMAGE_EXTENSIONS.any fun e => e.isSuffixOf (lowerStr n)

/-- The ordering `list.sort(key=_natural_key)` establishes: a stable sort
puts `s` no later than `t` unless `t`'s key is strictly smaller. -/
def pyNatLe (s t : List Char) : Prop := natLt t s = false

instance : DecidableRel pyNatLe := fun s t => by
  unfold pyNatLe; infer_instance

/-- Model of `images.sort(key=_natural_key)`: stable sort by the natural key. -/
def sortNames (l : List (List Char)) : List (List Char) :=
  l.insertionSort pyNatLe

/-- Python `range(0, len(l), B)` slicing: batch `j` is `l[j*B : j*B + B]`. -/
def pyBatches (B : Nat) (l : List α) : List (List α) :=
  (List.range ((l.length + B - 1) / B)).map fun j => (l.drop (j * B)).take B

/-- The batch loop (lines 67-90): per batch, decode each entry, skipping
failures, and `optimize_image` each decoded page; the batches' pages are
accumulated in order into `all_pages`. -/
def collectPages (B : Nat) (sorted : List (List Char))
    (decode : List Char → Option PILImage) : List PILImage :=
  (pyBatches B sorted).flatMap fun batch =>
    batch.filterMap fun n => (decode n).map optimize_image

/-- Processing the sorted entry list without batching (the specification's
description of step 3: "for each entry, decode the image; on a per-image
decode failure, log and skip that single entry", then transform). -/
def unbatchedPages (sorted : List (List Char))
    (decode : List Char → Option PILImage) : List PILImage :=
  sorted.filterMap fun n => (decode n).map optimize_image

/-- Outcome of `cbz_to_pdf` on a readable archive: either a single output
document holding the collected pages in order, or one of the two logged
skip notices. -/
inductive Outcome where
  | saved (pages : List PILImage)
  | skipNoImages
  | skipNoValid
deriving DecidableEq

/-- The pages of the produced document, if one is produced. -/
def Outcome.pagesOf : Outcome → Option (List PILImage)
  | .saved pages => some pages
  | _ => none

/-- Model of `cbz_to_pdf` on an archive with entry list `names` and entry decoding
`decode`: filter image entries ([SKIP] if none), natural-sort them, run
the batch loop, [SKIP] if no image decoded, else save all collected pages
as the single output document. -/
def cbz_to_pdf (names : List (List Char))
    (decode : List Char → Option PILImage) : Outcome :=
  let images := names.filter isImageName
  if images.isEmpty then .skipNoImages
  else
    let sorted := sortNames images
    let all_pages := collectPages BATCH_SIZE sorted decode
    if all_pages.isEmpty then .skipNoValid
    else .saved all_pages

/-! ## The top-level driver `main` (CBZtoPDF.py lines 130-152)

`cbz_to_pdf` wraps its whole body in `try`/`except Exception`, so a
failure to open the archive, or to save the document, is logged as
`[ERROR]` and the function returns normally; those two failure points are
modelled by the flags `openOk` and `saveOk`. -/

/-- One archive as the driver sees it: its display name (for the natural
sort of `*.cbz` files), whether `zipfile.ZipFile` succeeds on it, its
entry list and decoder, and whether the final `save` call succeeds. -/
structure ArchiveInput where
  name : List Char
  openOk : Bool
  entries : List (List Char)
  decode : List Char → Option PILImage
  saveOk : Bool

/-- The per-archive console outcome: `[OK]` with the saved pages, one of
the two `[SKIP]` notices, or a logged `[ERROR]` (open or save failure). -/
inductive ArchiveEvent where
  | ok (pages : List PILImage)
  | skipNoImages
  | skipNoValid
  | errored

/-- Run `cbz_to_pdf` on one archive; every failure is caught inside the
function and logged, so this is total. -/
def processArchive (a : ArchiveInput) : ArchiveEvent :=
  if a.openOk = false then .errored
  else
    match cbz_to_pdf a.entries a.decode with
    | .skipNoImages => .skipNoImages
    | .skipNoValid => .skipNoValid
    | .saved pages => if a.saveOk then .ok pages else .errored

/-- Model of `sorted(source_dir.glob("*.cbz"), key=lambda p: _natural_key(p.name))`. -/
def sortArchives (l : List ArchiveInput) : List ArchiveInput :=
  l.insertionSort fun a b => pyNatLe a.name b.name

instance : DecidableRel (fun (a b : ArchiveInput) => pyNatLe a.name b.name) :=
  fun a b => by unfold pyNatLe; infer_instance

/-- Model of `main`: abort with `SystemExit` when the configured source directory
is not a directory, otherwise convert every archive in natural-name
order. -/
def mainRun (srcIsDir : Bool) (archives : List ArchiveInput) :
    Except (List Char) (List ArchiveEvent) :=
  if srcIsDir = false then .error "INPUT_DIR not a directory".data
  else .ok ((sortArchives archives).map processArchive)

/-! ## Specification-side comparison order for C5 -/

/-- Case-insensitive lexicographic "strictly below". -/
def ciLt (s t : List Char) : Bool :=
  strCmp (lowerStr s) (lowerStr t) == Ordering.lt

/-- The stable-sort preorder of a Python sort keyed by `str.lower`:
`s` stays no later than `t` unless `t` compares strictly below. -/
def ciLe (s t : List Char) : Prop := ciLt t s = false

instance : DecidableRel ciLe := fun s t => by
  unfold ciLe; infer_instance

/-! ## Structure of the split: alternation invariant -/

/-- Alternation of the runs returned by `splitRuns`: read with flag
`true`, the list alternates digit-free segments (even positions) with
nonempty all-digit runs (odd positions). -/
def RunsAlt : Bool → List (List Char) → Prop
  | _, [] => True
  | true, t :: rest => (∀ c ∈ t, c.isDigit = false) ∧ RunsAlt false rest
  | false, d :: rest =>
      d ≠ [] ∧ (∀ c ∈ d, c.isDigit = true) ∧ RunsAlt true rest

/-- The corresponding alternation of key elements: strings at even
positions, ints at odd positions. -/
def KeyAlt : Bool → List Tok → Prop
  | _, [] => True
  | true, x :: rest => x.isStr = true ∧ KeyAlt false rest
  | false, x :: rest => x.isStr = false ∧ KeyAlt true rest

/-! ## Sanity checks on concrete inputs -/

example : splitRuns "page10.png".data =
    ["page".data, "10".data, ".png".data] := by decide
example : splitRuns "2a".data = [[], ['2'], ['a']] := by decide
example : splitRuns "".data = [[]] := by decide
example : natLt "page2.png".data "page10.png".data = true := by decide
example : natLt "page10.png".data "page2.png".data = false := by decide
example : natLt "A".data "b".data = true := by decide

example : optimize_image ⟨2400, 3200, "RGB"⟩ = ⟨1200, 1600, "RGB"⟩ := by decide
example : optimize_image ⟨100, 100, "RGBA"⟩ = ⟨100, 100, "RGB"⟩ := by decide
example : optimize_image ⟨2000, 100, "L"⟩ = ⟨1200, 60, "L"⟩ := by decide

example :
    cbz_to_pdf ["2.jpg".data, "notes.txt".data, "10.jpg".data, "1.jpg".data]
      (fun _ => some ⟨100, 100, "RGB"⟩) =
    .saved [⟨100, 100, "RGB"⟩, ⟨100, 100, "RGB"⟩, ⟨100, 100, "RGB"⟩] := by
  decide

example :
    cbz_to_pdf ["a.txt".data] (fun _ => some ⟨100, 100, "RGB"⟩) =
      .skipNoImages := by decide

example : cbz_to_pdf ["a.png".data] (fun _ => none) = .skipNoValid := by decide

/-! ## Proofs -/

theorem splitRuns_ne_nil (l : List Char) : splitRuns l ≠ [] := by
  cases l with
  | nil => simp [splitRuns]
  | cons c cs =>
    simp only [splitRuns]
    cases splitRuns cs with
    | nil => simp
    | cons t rest =>
      by_cases hd : c.isDigit = true
      · simp only [hd, if_true]
        cases t with
        | nil => cases rest <;> simp
        | cons a as => simp
      · simp only [hd]
        simp

theorem runsAlt_splitRuns (l : List Char) : RunsAlt true (splitRuns l) := by
  induction l with
  | nil => simp [splitRuns, RunsAlt]
  | cons c cs ih =>
    simp only [splitRuns]
    cases h : splitRuns cs with
    | nil => exact absurd h (splitRuns_ne_nil cs)
    | cons t rest =>
      rw [h] at ih
      obtain ⟨ht, hrest⟩ := ih
      by_cases hd : c.isDigit = true
      · simp only [hd, if_true]
        cases t with
        | nil =>
          cases rest with
          | nil => simp [RunsAlt, hd]
          | cons d rest2 =>
            obtain ⟨hdne, hdd, hrest2⟩ := hrest
            simp only [RunsAlt]
            refine ⟨by simp, by simp, ?_, hrest2⟩
            intro x hx
            rcases List.mem_cons.mp hx with h1 | h2
            · simpa [h1] using hd
            · exact hdd x h2
        | cons a as =>
          simp only [RunsAlt]
          refine ⟨by simp, by simp, ?_, ht, hrest⟩
          intro x hx
          rcases List.mem_singleton.mp hx with rfl
          exact hd
      · simp only [hd, if_false]
        simp only [RunsAlt]
        refine ⟨?_, hrest⟩
        intro x hx
        rcases List.mem_cons.mp hx with rfl | h2
        · simpa using hd
        · exact ht x h2

theorem keyAlt_of_runsAlt :
    ∀ (b : Bool) (rs : List (List Char)), RunsAlt b rs →
      KeyAlt b (rs.map fun t =>
        if pyIsDigit t then Tok.int (digitsToNat t) else Tok.str (lowerStr t))
  | b, [], _ => by cases b <;> simp [KeyAlt]
  | true, t :: rest, h => by
    obtain ⟨ht, hrest⟩ := h
    have hnd : pyIsDigit t = false := by
      cases t with
      | nil => simp [pyIsDigit]
      | cons a as =>
        have := ht a (List.mem_cons_self a as)
        simp [pyIsDigit, this]
    simpa [KeyAlt, hnd, Tok.isStr] using keyAlt_of_runsAlt false rest hrest
  | false, d :: rest, h => by
    obtain ⟨hne, hdd, hrest⟩ := h
    have hd : pyIsDigit d = true := by
      cases d with
      | nil => exact absurd rfl hne
      | cons a as =>
        simp only [pyIsDigit, List.isEmpty_cons, List.all_eq_true,
          Bool.not_false, Bool.true_and]
        exact fun x hx => hdd x hx
    simpa [KeyAlt, hd, Tok.isStr] using keyAlt_of_runsAlt true rest hrest

theorem keyAlt_naturalKey (s : List Char) : KeyAlt true (naturalKey s) :=
  keyAlt_of_runsAlt true (splitRuns s) (runsAlt_splitRuns s)

theorem keyCmp_isSome_of_keyAlt :
    ∀ (b : Bool) (k1 k2 : List Tok), KeyAlt b k1 → KeyAlt b k2 →
      (keyCmp k1 k2).isSome = true
  | _, [], [], _, _ => by simp [keyCmp]
  | _, [], _ :: _, _, _ => by simp [keyCmp]
  | _, _ :: _, [], _, _ => by simp [keyCmp]
  | b, x :: xs, y :: ys, h1, h2 => by
    have hx : x.isStr = (if b then true else false) := by
      cases b <;> simpa using h1.1
    have hy : y.isStr = (if b then true else false) := by
      cases b <;> simpa using h2.1
    have hxs : KeyAlt (!b) xs := by cases b <;> exact h1.2
    have hys : KeyAlt (!b) ys := by cases b <;> exact h2.2
    have ih := keyCmp_isSome_of_keyAlt (!b) xs ys hxs hys
    cases x with
    | int m =>
      cases y with
      | int n =>
        simp only [keyCmp, tokCmp]
        cases natCmp m n <;> simp [ih]
      | str t =>
        exfalso
        cases b <;> simp [Tok.isStr] at hx hy
    | str s' =>
      cases y with
      | int n =>
        exfalso
        cases b <;> simp [Tok.isStr] at hx hy
      | str t =>
        simp only [keyCmp, tokCmp]
        cases strCmp s' t <;> simp [ih]

/-- **C6.** The natural-sort key is total — `naturalKey` is a total
function on strings, so in particular strings with no digits and all-digit
strings get keys — and comparing the keys of any two strings never
reaches Python's `int`-versus-`str` `TypeError`: both keys alternate
string elements (even positions) with int elements (odd positions), so
elementwise comparison always meets like kinds and `keyCmp` always
returns a verdict. -/
theorem naturalKey_comparison_total (s t : List Char) :
    (keyCmp (naturalKey s) (naturalKey t)).isSome = true ∧
      KeyAlt true (naturalKey s) ∧ KeyAlt true (naturalKey t) :=
  ⟨keyCmp_isSome_of_keyAlt true (naturalKey s) (naturalKey t)
      (keyAlt_naturalKey s) (keyAlt_naturalKey t),
    keyAlt_naturalKey s, keyAlt_naturalKey t⟩

/-! ## How `splitRuns` acts on concatenations

These lemmas pin down the key of `a ++ d ++ b` when `d` is a maximal
digit run, i.e. `a` does not end in a digit and `b` does not start with
one. -/

theorem splitRuns_ne_single_nil (c : Char) (cs : List Char) :
    splitRuns (c :: cs) ≠ [[]] := by
  simp only [splitRuns]
  cases h : splitRuns cs with
  | nil => exact absurd h (splitRuns_ne_nil cs)
  | cons t rest =>
    by_cases hd : c.isDigit = true
    · simp only [hd, if_true]
      cases t with
      | nil => cases rest <;> simp
      | cons a as => simp
    · simp [hd]

/-- One unfolding step of `splitRuns`: a non-digit character extends the
leading text segment. -/
theorem splitRuns_cons_nondigit {c : Char} {cs t : List Char}
    {rest : List (List Char)} (hc : c.isDigit = false)
    (h : splitRuns cs = t :: rest) :
    splitRuns (c :: cs) = (c :: t) :: rest := by
  simp [splitRuns, h, hc]

/-- One unfolding step of `splitRuns`: a digit character joins the digit
run that immediately follows. -/
theorem splitRuns_cons_digit_merge {c : Char} {cs d : List Char}
    {rest2 : List (List Char)} (hc : c.isDigit = true)
    (h : splitRuns cs = [] :: d :: rest2) :
    splitRuns (c :: cs) = [] :: (c :: d) :: rest2 := by
  simp [splitRuns, h, hc]

/-- One unfolding step of `splitRuns`: a digit character before a
nonempty text segment opens a fresh digit run. -/
theorem splitRuns_cons_digit_new {c a : Char} {cs t : List Char}
    {rest : List (List Char)} (hc : c.isDigit = true)
    (h : splitRuns cs = (a :: t) :: rest) :
    splitRuns (c :: cs) = [] :: [c] :: (a :: t) :: rest := by
  simp [splitRuns, h, hc]

/-- One unfolding step of `splitRuns`: a digit character at the very end
of the string. -/
theorem splitRuns_cons_digit_last {c : Char} {cs : List Char}
    (hc : c.isDigit = true) (h : splitRuns cs = [[]]) :
    splitRuns (c :: cs) = [[], [c], []] := by
  simp [splitRuns, h, hc]

/-- Prepending a nonempty all-digit run to a string that does not start
with a digit: the run becomes one maximal digit run of the split. -/
theorem splitRuns_digits_append :
    ∀ (d : List Char), d ≠ [] → (∀ c ∈ d, c.isDigit = true) →
      ∀ (b : List Char), b.head?.all (fun c => !c.isDigit) = true →
        ∃ tb restb, splitRuns b = tb :: restb ∧
          splitRuns (d ++ b) = [] :: d :: tb :: restb
  | [], h, _, _, _ => absurd rfl h
  | [c], _, hdig, b, hb => by
    have hc : c.isDigit = true := hdig c (List.mem_singleton.mpr rfl)
    cases b with
    | nil =>
      exact ⟨[], [], rfl, splitRuns_cons_digit_last hc rfl⟩
    | cons c' cs =>
      have hc' : c'.isDigit = false := by
        simpa [List.head?] using hb
      cases h' : splitRuns cs with
      | nil => exact absurd h' (splitRuns_ne_nil cs)
      | cons t rest =>
        have hb' : splitRuns (c' :: cs) = (c' :: t) :: rest :=
          splitRuns_cons_nondigit hc' h'
        exact ⟨c' :: t, rest, hb', splitRuns_cons_digit_new hc hb'⟩
  | c :: c2 :: d', _, hdig, b, hb => by
    have hc : c.isDigit = true := hdig c (by simp)
    obtain ⟨tb, restb, h1, h2⟩ :=
      splitRuns_digits_append (c2 :: d') (by simp)
        (fun x hx => hdig x (List.mem_cons_of_mem c hx)) b hb
    exact ⟨tb, restb, h1, splitRuns_cons_digit_merge hc h2⟩

/-- Appending after a string that does not end in a digit: when the
second part's split starts with an empty text segment, the two splits
concatenate. -/
theorem splitRuns_append :
    ∀ (w : List Char), w.getLast?.all (fun c => !c.isDigit) = true →
      ∀ (u : List Char) (r : List (List Char)), splitRuns u = [] :: r →
        splitRuns (w ++ u) = splitRuns w ++ r
  | [], _, u, r, hu => by simpa [splitRuns] using hu
  | [c], hw, u, r, hu => by
    have hc : c.isDigit = false := by
      simpa [List.getLast?] using hw
    have h1 : splitRuns ([c] ++ u) = (c :: []) :: r :=
      splitRuns_cons_nondigit hc hu
    have h2 : splitRuns [c] = [c] :: ([] : List (List Char)) :=
      splitRuns_cons_nondigit hc rfl
    rw [h1, h2]
    rfl
  | c :: c' :: w'', hw, u, r, hu => by
    have hw' : (c' :: w'').getLast?.all (fun x => !x.isDigit) = true := by
      simpa [List.getLast?_cons_cons] using hw
    have ih := splitRuns_append (c' :: w'') hw' u r hu
    have hC : (c :: c' :: w'') ++ u = c :: ((c' :: w'') ++ u) := rfl
    rw [hC]
    cases h' : splitRuns (c' :: w'') with
    | nil => exact absurd h' (splitRuns_ne_nil _)
    | cons t rest =>
      rw [h'] at ih
      by_cases hd : c.isDigit = true
      · cases t with
        | nil =>
          cases rest with
          | nil => exact absurd h' (splitRuns_ne_single_nil c' w'')
          | cons e rest2 =>
            rw [splitRuns_cons_digit_merge hd ih,
              splitRuns_cons_digit_merge hd h']
            rfl
        | cons a as =>
          rw [splitRuns_cons_digit_new hd ih,
            splitRuns_cons_digit_new hd h']
          rfl
      · have hd' : c.isDigit = false := by simpa using hd
        rw [splitRuns_cons_nondigit hd' ih,
          splitRuns_cons_nondigit hd' h']
        rfl

/-! ## Key comparison along a common prefix -/

theorem strCmp_self : ∀ s : List Char, strCmp s s = .eq
  | [] => rfl
  | c :: cs => by simp [strCmp, charCmp, natCmp, strCmp_self cs]

theorem tokCmp_self (x : Tok) : tokCmp x x = some .eq := by
  cases x with
  | int n => simp [tokCmp, natCmp]
  | str s => simp [tokCmp, strCmp_self]

theorem keyCmp_append_self :
    ∀ (P k1 k2 : List Tok), keyCmp (P ++ k1) (P ++ k2) = keyCmp k1 k2
  | [], _, _ => rfl
  | x :: P', k1, k2 => by
    simp [keyCmp, tokCmp_self x, keyCmp_append_self P' k1 k2]

theorem pyIsDigit_eq_true {d : List Char} (hne : d ≠ [])
    (h : ∀ c ∈ d, c.isDigit = true) : pyIsDigit d = true := by
  cases d with
  | nil => exact absurd rfl hne
  | cons a as =>
    simp only [pyIsDigit, List.isEmpty_cons, List.all_eq_true,
      Bool.not_false, Bool.true_and]
    exact fun x hx => h x hx

/-- **C1.** Two filenames identical except for one maximal embedded digit
run (the shared part before it does not end in a digit, the shared part
after it does not start with one): the natural key of the name whose
digit run denotes the smaller integer compares strictly below the other,
so the sorter orders it first. -/
theorem natural_key_smaller_digit_run_first
    (a d1 d2 b : List Char)
    (ha : a.getLast?.all (fun c => !c.isDigit) = true)
    (hb : b.head?.all (fun c => !c.isDigit) = true)
    (hd1ne : d1 ≠ []) (hd1 : ∀ c ∈ d1, c.isDigit = true)
    (hd2ne : d2 ≠ []) (hd2 : ∀ c ∈ d2, c.isDigit = true)
    (hlt : digitsToNat d1 < digitsToNat d2) :
    natLt (a ++ d1 ++ b) (a ++ d2 ++ b) = true := by
  obtain ⟨tb, restb, hsb, h1⟩ := splitRuns_digits_append d1 hd1ne hd1 b hb
  obtain ⟨tb2, restb2, hsb2, h2⟩ := splitRuns_digits_append d2 hd2ne hd2 b hb
  rw [hsb] at hsb2
  obtain ⟨rfl, rfl⟩ : tb = tb2 ∧ restb = restb2 := by
    have h := List.cons.inj hsb2
    exact ⟨h.1, h.2⟩
  have hA1 := splitRuns_append a ha (d1 ++ b) (d1 :: tb :: restb) h1
  have hA2 := splitRuns_append a ha (d2 ++ b) (d2 :: tb :: restb) h2
  unfold natLt naturalKey
  rw [List.append_assoc a d1 b, List.append_assoc a d2 b, hA1, hA2,
    List.map_append, List.map_append, keyCmp_append_self]
  simp only [List.map_cons, pyIsDigit_eq_true hd1ne hd1,
    pyIsDigit_eq_true hd2ne hd2, if_true]
  have hcmp : natCmp (digitsToNat d1) (digitsToNat d2) = .lt := by
    simp [natCmp, hlt]
  simp [keyCmp, tokCmp, hcmp]
  rfl

/-- Witness for C1 at the spec's own example: `"page2.png"` is ordered
before `"page10.png"`. -/
theorem natural_key_smaller_digit_run_first_witness :
    natLt "page2.png".data "page10.png".data = true := by
  have e1 : "page2.png".data = "page".data ++ ['2'] ++ ".png".data := by
    decide
  have e2 : "page10.png".data = "page".data ++ ['1', '0'] ++ ".png".data := by
    decide
  rw [e1, e2]
  exact natural_key_smaller_digit_run_first "page".data ['2'] ['1', '0']
    ".png".data (by decide) (by decide) (by decide) (by decide) (by decide)
    (by decide) (by decide)

/-! ## Digit-free strings degenerate to case-insensitive comparison -/

theorem splitRuns_nodigit :
    ∀ (s : List Char), (∀ c ∈ s, c.isDigit = false) → splitRuns s = [s]
  | [], _ => rfl
  | c :: cs, h => by
    have hc : c.isDigit = false := h c (by simp)
    exact splitRuns_cons_nondigit hc
      (splitRuns_nodigit cs fun x hx => h x (List.mem_cons_of_mem c hx))

theorem naturalKey_nodigit (s : List Char)
    (h : ∀ c ∈ s, c.isDigit = false) :
    naturalKey s = [.str (lowerStr s)] := by
  have hp : pyIsDigit s = false := by
    cases s with
    | nil => rfl
    | cons a as => simp [pyIsDigit, List.all_cons, h a (by simp)]
  unfold naturalKey
  rw [splitRuns_nodigit s h]
  simp [hp]

/-- On digit-free strings the natural-key comparison is exactly the
case-insensitive lexicographic comparison. -/
theorem natLt_nodigit (s t : List Char)
    (hs : ∀ c ∈ s, c.isDigit = false) (ht : ∀ c ∈ t, c.isDigit = false) :
    natLt s t = (strCmp (lowerStr s) (lowerStr t) == Ordering.lt) := by
  unfold natLt
  rw [naturalKey_nodigit s hs, naturalKey_nodigit t ht]
  cases h : strCmp (lowerStr s) (lowerStr t) <;> simp [keyCmp, tokCmp, h]

/-- A stable insertion sort only compares elements of its input, so
pointwise-agreeing preorders sort equally: `orderedInsert` step. -/
theorem orderedInsert_congr {α : Type _} {r s : α → α → Prop}
    [DecidableRel r] [DecidableRel s] (a : α) :
    ∀ (l : List α), (∀ c ∈ l, r a c ↔ s a c) →
      l.orderedInsert r a = l.orderedInsert s a
  | [], _ => rfl
  | b :: l, h => by
    by_cases hr : r a b
    · rw [List.orderedInsert, List.orderedInsert, if_pos hr,
        if_pos ((h b (by simp)).mp hr)]
    · rw [List.orderedInsert, List.orderedInsert, if_neg hr,
        if_neg (fun hs' => hr ((h b (by simp)).mpr hs')),
        orderedInsert_congr a l fun c hc => h c (by simp [hc])]

/-- A stable insertion sort only compares elements of its input, so
pointwise-agreeing preorders sort equally. -/
theorem insertionSort_congr {α : Type _} {r s : α → α → Prop}
    [DecidableRel r] [DecidableRel s] :
    ∀ (l : List α), (∀ a ∈ l, ∀ b ∈ l, r a b ↔ s a b) →
      l.insertionSort r = l.insertionSort s
  | [], _ => rfl
  | b :: l, h => by
    rw [List.insertionSort, List.insertionSort,
      insertionSort_congr l fun x hx y hy => h x (by simp [hx]) y (by simp [hy])]
    exact orderedInsert_congr b _ fun c hc =>
      h b (by simp) c (List.mem_cons_of_mem b ((List.mem_insertionSort s).mp hc))

/-- **C5.** On a set of digit-free filenames, sorting with the natural
key produces exactly the case-insensitive lexicographic order: the
sorter's output equals a stable sort by lowercased lexicographic
comparison. -/
theorem alphabetic_sort_is_case_insensitive_lex (l : List (List Char))
    (h : ∀ nm ∈ l, ∀ c ∈ nm, c.isDigit = false) :
    sortNames l = l.insertionSort ciLe := by
  unfold sortNames
  apply insertionSort_congr l
  intro x hx y hy
  unfold pyNatLe ciLe ciLt
  rw [natLt_nodigit y x (h y hy) (h x hx)]

/-- Witness for C5: on `["Beta", "alpha", "GAMMA"]` (no digits) the
natural sort agrees with the case-insensitive lexicographic sort, which
puts `alpha` before `Beta` before `GAMMA`. -/
theorem alphabetic_sort_is_case_insensitive_lex_witness :
    sortNames ["Beta".data, "alpha".data, "GAMMA".data] =
      ["alpha".data, "Beta".data, "GAMMA".data] ∧
    List.insertionSort ciLe ["Beta".data, "alpha".data, "GAMMA".data] =
      ["alpha".data, "Beta".data, "GAMMA".data] := by
  constructor
  · rw [alphabetic_sort_is_case_insensitive_lex
      ["Beta".data, "alpha".data, "GAMMA".data] (by decide)]
    decide
  · decide

/-! ## The batch loop: slicing facts -/

/-- Slicing as `l[0:B] :: l[B:] ...`: one step of the stride-`B` slicing. -/
theorem pyBatches_cons {α : Type _} (B : Nat) (hB : 1 ≤ B) (l : List α)
    (hl : l ≠ []) :
    pyBatches B l = l.take B :: pyBatches B (l.drop B) := by
  obtain ⟨x, xs, rfl⟩ := List.exists_cons_of_ne_nil hl
  have e1 : ((x :: xs).length + B - 1) / B = xs.length / B + 1 := by
    have h : (x :: xs).length + B - 1 = xs.length + B := by
      simp only [List.length_cons]; omega
    rw [h, Nat.add_div_right _ hB]
  have e2 : (((x :: xs).drop B).length + B - 1) / B = xs.length / B := by
    rw [List.length_drop]
    rcases le_or_lt B (xs.length + 1) with h | h
    · have h3 : (x :: xs).length - B + B - 1 = xs.length := by
        simp only [List.length_cons]; omega
      rw [h3]
    · have h0 : (x :: xs).length - B = 0 := by
        simp only [List.length_cons]; omega
      rw [h0, Nat.div_eq_of_lt (by omega),
        Nat.div_eq_of_lt (by omega : xs.length < B)]
  unfold pyBatches
  rw [e1, e2, List.range_succ_eq_map, List.map_cons, List.map_map]
  congr 1
  · simp
  · have hfg : ((fun j => ((x :: xs).drop (j * B)).take B) ∘ Nat.succ) =
        fun j => (((x :: xs).drop B).drop (j * B)).take B := by
      funext j
      show ((x :: xs).drop (Nat.succ j * B)).take B =
        (((x :: xs).drop B).drop (j * B)).take B
      rw [List.drop_drop, Nat.succ_mul j B, Nat.add_comm (j * B) B]
    rw [hfg]

/-- The stride-`B` slices of a list concatenate back to the list. -/
theorem pyBatches_flatten {α : Type _} (B : Nat) (hB : 1 ≤ B) :
    ∀ l : List α, (pyBatches B l).flatten = l
  | [] => by
    unfold pyBatches
    rw [show ([] : List α).length + B - 1 = B - 1 by simp,
      Nat.div_eq_of_lt (by omega)]
    simp
  | x :: xs => by
    rw [pyBatches_cons B hB (x :: xs) (by simp), List.flatten_cons,
      pyBatches_flatten B hB ((x :: xs).drop B)]
    exact List.take_append_drop B (x :: xs)
termination_by l => l.length
decreasing_by
  simp only [List.length_drop, List.length_cons]
  omega

/-- Per-batch `filterMap`s concatenate to the `filterMap` of the whole. -/
theorem flatMap_filterMap_eq {α β : Type _} (f : α → Option β) :
    ∀ L : List (List α),
      (L.flatMap fun b => b.filterMap f) = L.flatten.filterMap f
  | [] => rfl
  | b :: L => by
    simp only [List.flatMap_cons, List.flatten_cons, List.filterMap_append,
      flatMap_filterMap_eq f L]

/-- The batch loop collects exactly the pages of the batching-free pass,
for every stride. -/
theorem collectPages_eq_unbatched (B : Nat) (hB : 1 ≤ B)
    (ns : List (List Char)) (dec : List Char → Option PILImage) :
    collectPages B ns dec = unbatchedPages ns dec := by
  unfold collectPages unbatchedPages
  rw [flatMap_filterMap_eq, pyBatches_flatten B hB ns]

/-- **C10.** For every entry list and every batch size `B ≥ 1`, the pages
collected by the batch loop coincide with those of an unbatched pass over
the same list, and hence with the collection at the configured
`BATCH_SIZE`: page order and count are independent of the batch size. -/
theorem batch_loop_independent_of_batch_size (B : Nat) (hB : 1 ≤ B)
    (ns : List (List Char)) (dec : List Char → Option PILImage) :
    collectPages B ns dec = unbatchedPages ns dec ∧
    collectPages B ns dec = collectPages BATCH_SIZE ns dec := by
  have h1 := collectPages_eq_unbatched B hB ns dec
  have h2 := collectPages_eq_unbatched BATCH_SIZE (by decide) ns dec
  exact ⟨h1, h1.trans h2.symm⟩

/-- Witness for C10 at batch size 2 on a three-entry archive. -/
theorem batch_loop_independent_of_batch_size_witness :
    collectPages 2 ["c.png".data, "a.png".data, "b.png".data]
        (fun n => if n = "b.png".data then none else some ⟨7, 9, "RGB"⟩) =
      unbatchedPages ["c.png".data, "a.png".data, "b.png".data]
        (fun n => if n = "b.png".data then none else some ⟨7, 9, "RGB"⟩) ∧
    collectPages 2 ["c.png".data, "a.png".data, "b.png".data]
        (fun n => if n = "b.png".data then none else some ⟨7, 9, "RGB"⟩) =
      collectPages BATCH_SIZE ["c.png".data, "a.png".data, "b.png".data]
        (fun n => if n = "b.png".data then none else some ⟨7, 9, "RGB"⟩) :=
  batch_loop_independent_of_batch_size 2 (by decide)
    ["c.png".data, "a.png".data, "b.png".data]
    (fun n => if n = "b.png".data then none else some ⟨7, 9, "RGB"⟩)

/-! ## Characterising `cbz_to_pdf` -/

/-- Rewriting `cbz_to_pdf` with the batch loop replaced by its unbatched value. -/
theorem cbz_to_pdf_eq (names : List (List Char))
    (dec : List Char → Option PILImage) :
    cbz_to_pdf names dec =
      if (names.filter isImageName).isEmpty then .skipNoImages
      else if (unbatchedPages (sortNames (names.filter isImageName))
          dec).isEmpty then .skipNoValid
      else .saved (unbatchedPages (sortNames (names.filter isImageName))
        dec) := by
  simp only [cbz_to_pdf]
  rw [collectPages_eq_unbatched BATCH_SIZE (by decide)]

theorem isEmpty_false_of_ne_nil {α : Type _} {l : List α} (h : l ≠ []) :
    l.isEmpty = false := by
  cases l with
  | nil => exact absurd rfl h
  | cons a as => rfl

theorem mem_sortNames {n : List Char} {l : List (List Char)} :
    n ∈ sortNames l ↔ n ∈ l := by
  simp [sortNames]

theorem length_sortNames (l : List (List Char)) :
    (sortNames l).length = l.length := by
  simp [sortNames]

/-- When every lookup succeeds, collecting the successes is a `map`. -/
theorem filterMap_map_of_isSome {α β γ : Type _} (g : β → γ)
    (f : α → Option β) (d : β) :
    ∀ (l : List α), (∀ a ∈ l, (f a).isSome = true) →
      l.filterMap (fun a => (f a).map g) = l.map fun a => g ((f a).getD d)
  | [], _ => rfl
  | a :: l, h => by
    obtain ⟨b, hb⟩ := Option.isSome_iff_exists.mp (h a (by simp))
    simp only [List.filterMap_cons, List.map_cons, hb, Option.map_some',
      Option.getD_some,
      filterMap_map_of_isSome g f d l fun x hx => h x (by simp [hx])]

/-- Collected successes and skipped failures partition the entry list. -/
theorem length_filterMap_add_none {α β γ : Type _} (g : β → γ)
    (f : α → Option β) :
    ∀ l : List α,
      (l.filterMap fun a => (f a).map g).length
        + (l.filter fun a => (f a).isNone).length = l.length
  | [] => rfl
  | a :: l => by
    have ih := length_filterMap_add_none g f l
    cases hfa : f a with
    | none =>
      simp only [List.filterMap_cons, List.filter_cons, hfa,
        Option.map_none', Option.isNone_none, if_true, List.length_cons]
      omega
    | some b =>
      simp only [List.filterMap_cons, List.filter_cons, hfa,
        Option.map_some', Option.isNone_some, List.length_cons]
      simp only [Bool.false_eq_true, if_false]
      omega

/-- **C3.** An output document is produced exactly when at least one
qualifying entry decodes: no qualifying entries gives the "no images"
skip, and qualifying entries that all fail to decode give the "no valid
images" skip — in both cases no document and no error. -/
theorem document_iff_some_entry_decodes (names : List (List Char))
    (dec : List Char → Option PILImage) :
    ((∃ pages, cbz_to_pdf names dec = .saved pages) ↔
      ∃ n ∈ names.filter isImageName, (dec n).isSome = true) ∧
    (names.filter isImageName = [] →
      cbz_to_pdf names dec = .skipNoImages) ∧
    (names.filter isImageName ≠ [] →
      (∀ n ∈ names.filter isImageName, dec n = none) →
      cbz_to_pdf names dec = .skipNoValid) := by
  have hchar := cbz_to_pdf_eq names dec
  refine ⟨⟨?_, ?_⟩, ?_, ?_⟩
  · rintro ⟨pages, hpages⟩
    rw [hchar] at hpages
    by_cases h1 : (names.filter isImageName).isEmpty
    · rw [if_pos h1] at hpages
      exact absurd hpages (by simp)
    · rw [if_neg h1] at hpages
      by_cases h2 : (unbatchedPages (sortNames (names.filter isImageName))
          dec).isEmpty
      · rw [if_pos h2] at hpages
        exact absurd hpages (by simp)
      · have hne : unbatchedPages (sortNames (names.filter isImageName))
            dec ≠ [] := by
          simpa [List.isEmpty_iff] using h2
        unfold unbatchedPages at hne
        have := mt List.filterMap_eq_nil_iff.mpr hne
        push_neg at this
        obtain ⟨n, hn, hne'⟩ := this
        refine ⟨n, mem_sortNames.mp hn, ?_⟩
        rw [Option.isSome_iff_ne_none]
        intro hnone
        exact hne' (by rw [hnone]; rfl)
  · rintro ⟨n, hn, hsome⟩
    have hqne : names.filter isImageName ≠ [] := by
      intro h; rw [h] at hn; simp at hn
    have h1 : (names.filter isImageName).isEmpty = false := by
      simpa [List.isEmpty_iff] using hqne
    have h2 : unbatchedPages (sortNames (names.filter isImageName))
        dec ≠ [] := by
      unfold unbatchedPages
      intro hnil
      have := List.filterMap_eq_nil_iff.mp hnil n (mem_sortNames.mpr hn)
      rw [Option.isSome_iff_ne_none] at hsome
      exact hsome (by
        cases hd : dec n with
        | none => rfl
        | some b => rw [hd] at this; simp at this)
    refine ⟨unbatchedPages (sortNames (names.filter isImageName)) dec, ?_⟩
    rw [hchar, h1, isEmpty_false_of_ne_nil h2]
    simp
  · intro h
    rw [hchar]
    simp [h]
  · intro hne hall
    have h1 : (names.filter isImageName).isEmpty = false :=
      isEmpty_false_of_ne_nil hne
    have h2 : unbatchedPages (sortNames (names.filter isImageName))
        dec = [] := by
      unfold unbatchedPages
      exact List.filterMap_eq_nil_iff.mpr fun n hn => by
        rw [hall n (mem_sortNames.mp hn)]; rfl
    rw [hchar, h1, h2]
    simp

/-- Witness for C3: one valid and one corrupt entry — a document is
produced; and for the corrupt-only archive the outcome is the skip. -/
theorem document_iff_some_entry_decodes_witness :
    (∃ pages, cbz_to_pdf ["x.png".data, "y.png".data]
        (fun n => if n = "x.png".data then some ⟨3, 4, "L"⟩ else none) =
        .saved pages) ∧
    cbz_to_pdf ["z.txt".data] (fun _ => some ⟨3, 4, "L"⟩) = .skipNoImages := by
  constructor
  · exact (document_iff_some_entry_decodes ["x.png".data, "y.png".data]
      (fun n => if n = "x.png".data then some ⟨3, 4, "L"⟩ else none)).1.mpr
      ⟨"x.png".data, by decide, by decide⟩
  · exact (document_iff_some_entry_decodes ["z.txt".data]
      (fun _ => some ⟨3, 4, "L"⟩)).2.1 (by decide)

/-- **C2.** When every qualifying entry decodes and there is at least
one, the archive yields exactly one document whose pages are, in order,
the transformed images of the natural-sorted entry names — in particular
exactly `N` pages for `N` qualifying entries. -/
theorem archive_all_decoded_yields_N_pages (names : List (List Char))
    (dec : List Char → Option PILImage)
    (hne : names.filter isImageName ≠ [])
    (hall : ∀ n ∈ names.filter isImageName, (dec n).isSome = true) :
    ∃ pages, cbz_to_pdf names dec = .saved pages ∧
      pages.length = (names.filter isImageName).length ∧
      pages = (sortNames (names.filter isImageName)).map
        fun n => optimize_image ((dec n).getD ⟨0, 0, ""⟩) := by
  have hmap : unbatchedPages (sortNames (names.filter isImageName)) dec =
      (sortNames (names.filter isImageName)).map
        (fun n => optimize_image ((dec n).getD ⟨0, 0, ""⟩)) := by
    unfold unbatchedPages
    exact filterMap_map_of_isSome optimize_image dec ⟨0, 0, ""⟩ _
      fun n hn => hall n (mem_sortNames.mp hn)
  have hlen : (unbatchedPages (sortNames (names.filter isImageName))
      dec).length = (names.filter isImageName).length := by
    rw [hmap, List.length_map, length_sortNames]
  have hPne : unbatchedPages (sortNames (names.filter isImageName))
      dec ≠ [] := by
    intro h
    rw [h] at hlen
    exact hne (List.length_eq_zero.mp hlen.symm)
  refine ⟨unbatchedPages (sortNames (names.filter isImageName)) dec, ?_,
    hlen, hmap⟩
  rw [cbz_to_pdf_eq, isEmpty_false_of_ne_nil hne,
    isEmpty_false_of_ne_nil hPne]
  simp

/-- Witness for C2: three decodable pages named `2.png`, `10.png`,
`1.png` give one document of three pages in natural order. -/
theorem archive_all_decoded_yields_N_pages_witness :
    ∃ pages, cbz_to_pdf ["2.png".data, "10.png".data, "1.png".data]
        (fun _ => some ⟨30, 40, "RGB"⟩) = .saved pages ∧
      pages.length = ((["2.png".data, "10.png".data, "1.png".data]).filter
        isImageName).length ∧
      pages = (sortNames ((["2.png".data, "10.png".data,
          "1.png".data]).filter isImageName)).map
        fun n => optimize_image
          (((fun _ => some (⟨30, 40, "RGB"⟩ : PILImage)) n).getD
            ⟨0, 0, ""⟩) :=
  archive_all_decoded_yields_N_pages
    ["2.png".data, "10.png".data, "1.png".data]
    (fun _ => some ⟨30, 40, "RGB"⟩) (by decide) (by decide)

/-! ## C4: a single decode failure -/

/-- **Counterexample to C4 as stated.** An archive with exactly `N = 1`
qualifying entry whose single entry fails to decode produces no document
at all (the "no valid images" skip), not a document with `N - 1 = 0`
pages. -/
theorem single_failure_N1_yields_no_document :
    (["a.png".data].filter isImageName).length = 1 ∧
    ((["a.png".data].filter isImageName).filter
      (fun n => ((fun _ => (none : Option PILImage)) n).isNone)).length
        = 1 ∧
    (cbz_to_pdf ["a.png".data] fun _ => none).pagesOf = none := by decide

/-- **C4, amended.** For `N ≥ 2` qualifying entries of which exactly one
fails to decode, the remaining entries are still all processed and the
archive yields a document with exactly `N - 1` pages.  (At `N = 1` the
code instead skips the archive: see the counterexample.) -/
theorem single_decode_failure_yields_N_minus_one_pages
    (names : List (List Char)) (dec : List Char → Option PILImage)
    (h2 : 2 ≤ (names.filter isImageName).length)
    (h1 : ((names.filter isImageName).filter
      (fun n => (dec n).isNone)).length = 1) :
    ∃ pages, cbz_to_pdf names dec = .saved pages ∧
      pages.length = (names.filter isImageName).length - 1 := by
  have hperm : List.Perm (sortNames (names.filter isImageName))
      (names.filter isImageName) := List.perm_insertionSort pyNatLe _
  have hlen := length_filterMap_add_none optimize_image dec
    (sortNames (names.filter isImageName))
  have hfilter : ((sortNames (names.filter isImageName)).filter
      fun n => (dec n).isNone).length = 1 := by
    rw [(hperm.filter _).length_eq, h1]
  rw [hfilter, length_sortNames] at hlen
  have hPlen : (unbatchedPages (sortNames (names.filter isImageName))
      dec).length = (names.filter isImageName).length - 1 := by
    unfold unbatchedPages
    omega
  have hPne : unbatchedPages (sortNames (names.filter isImageName))
      dec ≠ [] := by
    intro h
    rw [h] at hPlen
    simp at hPlen
    omega
  refine ⟨unbatchedPages (sortNames (names.filter isImageName)) dec, ?_,
    hPlen⟩
  have hqne : names.filter isImageName ≠ [] := by
    intro h
    rw [h] at h2
    simp at h2
  rw [cbz_to_pdf_eq, isEmpty_false_of_ne_nil hqne,
    isEmpty_false_of_ne_nil hPne]
  simp

/-- Witness for the amended C4: of three qualifying entries exactly
`2.png` fails, and the document has two pages. -/
theorem single_decode_failure_yields_N_minus_one_pages_witness :
    ∃ pages, cbz_to_pdf ["1.png".data, "2.png".data, "3.png".data]
        (fun n => if n = "2.png".data then none
          else some ⟨30, 40, "RGB"⟩) = .saved pages ∧
      pages.length = ((["1.png".data, "2.png".data,
        "3.png".data]).filter isImageName).length - 1 :=
  single_decode_failure_yields_N_minus_one_pages
    ["1.png".data, "2.png".data, "3.png".data]
    (fun n => if n = "2.png".data then none else some ⟨30, 40, "RGB"⟩)
    (by decide) (by decide)

/-! ## C7: the thumbnail arithmetic -/

theorem roundAspectFixed_le (N D M : Nat) (hD : 0 < D) (hNM : N ≤ M * D)
    (hM : 1 ≤ M) : roundAspectFixed N D ≤ M := by
  have hf : N / D ≤ M := by
    calc N / D ≤ M * D / D := Nat.div_le_div_right hNM
      _ = M := Nat.mul_div_cancel M hD
  have hc : N % D ≠ 0 → N / D + 1 ≤ M := by
    intro hr
    have hlt : N < M * D := by
      rcases Nat.lt_or_ge N (M * D) with hx | hx
      · exact hx
      · rw [le_antisymm hNM hx] at hr
        exact absurd (Nat.mul_mod_left M D) hr
    have := (Nat.div_lt_iff_lt_mul hD).mpr hlt
    omega
  simp only [roundAspectFixed]
  split_ifs with h1 h2
  · exact Nat.max_le.mpr ⟨hf, hM⟩
  · exact Nat.max_le.mpr ⟨hf, hM⟩
  · exact Nat.max_le.mpr ⟨hc h2, hM⟩

/-- Either rounding candidate, clamped to 1, stays within one denominator
of the exact scaled value. -/
theorem max_one_mul_within (q r D N : Nat) (h1 : D * q + r = N)
    (h2 : r < D) :
    (max q 1 * D ≤ N + D ∧ N ≤ max q 1 * D + D) ∧
      (max (q + 1) 1 * D ≤ N + D ∧ N ≤ max (q + 1) 1 * D + D) := by
  constructor
  · rcases Nat.eq_zero_or_pos q with rfl | hq
    · rw [show max 0 1 = 1 from rfl]
      omega
    · rw [Nat.max_eq_left hq]
      constructor
      · calc q * D = D * q := Nat.mul_comm q D
          _ ≤ D * q + r := Nat.le_add_right _ _
          _ = N := h1
          _ ≤ N + D := Nat.le_add_right _ _
      · calc N = D * q + r := h1.symm
          _ ≤ D * q + D := Nat.add_le_add_left h2.le _
          _ = q * D + D := by rw [Nat.mul_comm]
  · rw [Nat.max_eq_left (Nat.succ_le_succ (Nat.zero_le q))]
    constructor
    · calc (q + 1) * D = D * q + D := by ring
        _ = (D * q + r) + (D - r) := by omega
        _ = N + (D - r) := by rw [h1]
        _ ≤ N + D := by omega
    · calc N = D * q + r := h1.symm
        _ ≤ D * q + D + D := by omega
        _ = (q + 1) * D + D := by ring_nf

theorem roundAspectFixed_aspect (N D : Nat) (hD : 0 < D) :
    roundAspectFixed N D * D ≤ N + D ∧ N ≤ roundAspectFixed N D * D + D := by
  have h1 := Nat.div_add_mod N D
  have h2 := Nat.mod_lt N hD
  have hw := max_one_mul_within (N / D) (N % D) D N h1 h2
  simp only [roundAspectFixed]
  split_ifs
  · exact hw.1
  · exact hw.1
  · exact hw.2

theorem roundAspectVar_le (N D M : Nat) (hD : 0 < D) (hNM : N ≤ M * D)
    (hM : 1 ≤ M) : roundAspectVar N D ≤ M := by
  have hf : N / D ≤ M := by
    calc N / D ≤ M * D / D := Nat.div_le_div_right hNM
      _ = M := Nat.mul_div_cancel M hD
  have hc : N % D ≠ 0 → N / D + 1 ≤ M := by
    intro hr
    have hlt : N < M * D := by
      rcases Nat.lt_or_ge N (M * D) with hx | hx
      · exact hx
      · rw [le_antisymm hNM hx] at hr
        exact absurd (Nat.mul_mod_left M D) hr
    have := (Nat.div_lt_iff_lt_mul hD).mpr hlt
    omega
  simp only [roundAspectVar]
  split_ifs
  all_goals
    first
      | exact Nat.max_le.mpr ⟨hf, hM⟩
      | exact Nat.max_le.mpr ⟨hc (by assumption), hM⟩

theorem roundAspectVar_aspect (N D : Nat) (hD : 0 < D) :
    roundAspectVar N D * D ≤ N + D ∧ N ≤ roundAspectVar N D * D + D := by
  have h1 := Nat.div_add_mod N D
  have h2 := Nat.mod_lt N hD
  have hw := max_one_mul_within (N / D) (N % D) D N h1 h2
  simp only [roundAspectVar]
  split_ifs
  all_goals first | exact hw.1 | exact hw.2

/-- PIL `Image.thumbnail` on an image that does not fit the positive box
`(mx, my)`: the result fits the box, does not enlarge either dimension,
and preserves the aspect ratio up to the integer rounding of the scaled
dimension. -/
theorem thumbnailSize_le (w h mx my : Nat) (hw : 0 < w) (hh : 0 < h)
    (hmx : 0 < mx) (hmy : 0 < my) (hover : ¬(w ≤ mx ∧ h ≤ my)) :
    (thumbnailSize w h mx my).1 ≤ mx ∧
    (thumbnailSize w h mx my).2 ≤ my ∧
    (thumbnailSize w h mx my).1 ≤ w ∧
    (thumbnailSize w h mx my).2 ≤ h ∧
    (thumbnailSize w h mx my).1 * h ≤
      w * (thumbnailSize w h mx my).2 + max w h ∧
    w * (thumbnailSize w h mx my).2 ≤
      (thumbnailSize w h mx my).1 * h + max w h := by
  unfold thumbnailSize
  rw [if_neg hover]
  by_cases hbr : w * my ≤ mx * h
  · rw [if_pos hbr]
    have hmyh : my ≤ h := by
      rcases Nat.lt_or_ge mx w with hx | hx
      · by_contra hcon
        push_neg at hcon
        have h3 : mx * h < w * h := mul_lt_mul_of_pos_right hx hh
        have h4 : w * h ≤ w * my := Nat.mul_le_mul (le_refl w) hcon.le
        exact absurd ((hbr.trans_lt h3).trans_le h4) (lt_irrefl _)
      · rcases not_and_or.mp hover with h5 | h5
        · exact absurd hx h5
        · exact (not_le.mp h5).le
    have hN : my * w ≤ mx * h := by
      calc my * w = w * my := Nat.mul_comm my w
        _ ≤ mx * h := hbr
    obtain ⟨ha1, ha2⟩ := roundAspectFixed_aspect (my * w) h hh
    refine ⟨?_, le_refl my, ?_, hmyh, ?_, ?_⟩
    · exact roundAspectFixed_le (my * w) h mx hh hN hmx
    · refine roundAspectFixed_le (my * w) h w hh ?_ hw
      calc my * w = w * my := Nat.mul_comm my w
        _ ≤ w * h := Nat.mul_le_mul (le_refl w) hmyh
    · calc roundAspectFixed (my * w) h * h ≤ my * w + h := ha1
        _ = w * my + h := by rw [Nat.mul_comm]
        _ ≤ w * my + max w h := Nat.add_le_add_left (Nat.le_max_right w h) _
    · calc w * my = my * w := Nat.mul_comm w my
        _ ≤ roundAspectFixed (my * w) h * h + h := ha2
        _ ≤ roundAspectFixed (my * w) h * h + max w h :=
          Nat.add_le_add_left (Nat.le_max_right w h) _
  · rw [if_neg hbr]
    push_neg at hbr
    have hmxw : mx ≤ w := by
      rcases not_and_or.mp hover with h5 | h5
      · exact (not_le.mp h5).le
      · have hmyh : my < h := not_le.mp h5
        by_contra hcon
        push_neg at hcon
        have h3 : w * my ≤ mx * my := Nat.mul_le_mul hcon.le (le_refl my)
        have h4 : mx * my ≤ mx * h := Nat.mul_le_mul (le_refl mx) hmyh.le
        exact absurd ((hbr.trans_le h3).trans_le h4) (lt_irrefl _)
    obtain ⟨ha1, ha2⟩ := roundAspectVar_aspect (mx * h) w hw
    refine ⟨le_refl mx, ?_, hmxw, ?_, ?_, ?_⟩
    · refine roundAspectVar_le (mx * h) w my hw ?_ hmy
      calc mx * h ≤ w * my := hbr.le
        _ = my * w := Nat.mul_comm w my
    · refine roundAspectVar_le (mx * h) w h hw ?_ hh
      calc mx * h ≤ w * h := Nat.mul_le_mul hmxw (le_refl h)
        _ = h * w := Nat.mul_comm w h
    · calc mx * h ≤ roundAspectVar (mx * h) w * w + w := ha2
        _ = w * roundAspectVar (mx * h) w + w := by rw [Nat.mul_comm]
        _ ≤ w * roundAspectVar (mx * h) w + max w h :=
          Nat.add_le_add_left (Nat.le_max_left w h) _
    · calc w * roundAspectVar (mx * h) w
          = roundAspectVar (mx * h) w * w := Nat.mul_comm _ _
        _ ≤ mx * h + w := ha1
        _ ≤ mx * h + max w h := Nat.add_le_add_left (Nat.le_max_left w h) _

/-- **C7.** A decoded image with a dimension exceeding the configured
`MAX_IMAGE_SIZE = (1200, 1600)` is downscaled — neither output dimension
exceeds its configured maximum, neither grows, and the aspect ratio is
preserved up to the rounding of the scaled dimension; an image already
inside the bounding box keeps its dimensions. -/
theorem downscale_within_configured_box (img : PILImage)
    (hw : 0 < img.width) (hh : 0 < img.height) :
    ((MAX_IMAGE_SIZE.1 < img.width ∨ MAX_IMAGE_SIZE.2 < img.height) →
      ((optimize_image img).width ≤ MAX_IMAGE_SIZE.1 ∧
        (optimize_image img).height ≤ MAX_IMAGE_SIZE.2 ∧
        (optimize_image img).width ≤ img.width ∧
        (optimize_image img).height ≤ img.height ∧
        (optimize_image img).width * img.height ≤
          img.width * (optimize_image img).height +
            max img.width img.height ∧
        img.width * (optimize_image img).height ≤
          (optimize_image img).width * img.height +
            max img.width img.height)) ∧
    ((img.width ≤ MAX_IMAGE_SIZE.1 ∧ img.height ≤ MAX_IMAGE_SIZE.2) →
      (optimize_image img).width = img.width ∧
      (optimize_image img).height = img.height) := by
  obtain ⟨w, h, m⟩ := img
  simp only [optimize_image, MAX_IMAGE_SIZE] at *
  constructor
  · intro hover
    rw [if_pos hover]
    exact thumbnailSize_le w h 1200 1600 hw hh (by omega) (by omega)
      (by omega)
  · intro hin
    rw [if_neg (by omega)]
    exact ⟨rfl, rfl⟩

/-- Witness for C7: a 2000-wide, 100-tall image is downscaled to fit and
keep proportion; the bound facts are instantiated concretely. -/
theorem downscale_within_configured_box_witness :
    ((MAX_IMAGE_SIZE.1 < (2000 : Nat) ∨ MAX_IMAGE_SIZE.2 < (100 : Nat)) →
      ((optimize_image ⟨2000, 100, "RGB"⟩).width ≤ MAX_IMAGE_SIZE.1 ∧
        (optimize_image ⟨2000, 100, "RGB"⟩).height ≤ MAX_IMAGE_SIZE.2 ∧
        (optimize_image ⟨2000, 100, "RGB"⟩).width ≤ 2000 ∧
        (optimize_image ⟨2000, 100, "RGB"⟩).height ≤ 100 ∧
        (optimize_image ⟨2000, 100, "RGB"⟩).width * 100 ≤
          2000 * (optimize_image ⟨2000, 100, "RGB"⟩).height +
            max 2000 100 ∧
        2000 * (optimize_image ⟨2000, 100, "RGB"⟩).height ≤
          (optimize_image ⟨2000, 100, "RGB"⟩).width * 100 +
            max 2000 100)) ∧
    (((2000 : Nat) ≤ MAX_IMAGE_SIZE.1 ∧ (100 : Nat) ≤ MAX_IMAGE_SIZE.2) →
      (optimize_image ⟨2000, 100, "RGB"⟩).width = 2000 ∧
      (optimize_image ⟨2000, 100, "RGB"⟩).height = 100) :=
  downscale_within_configured_box ⟨2000, 100, "RGB"⟩ (by decide) (by decide)

/-! ## C8: colour-mode normalisation -/

/-- **Counterexample to C8 as stated.** The mode `LA` (grayscale with an
alpha channel) is not converted by the GPU variant's per-image transform:
`process_image_gpu` only converts `P` and `RGBA`, so an `LA` page is
collected still carrying its alpha channel, not as plain `RGB`. -/
theorem gpu_transform_keeps_LA_mode :
    gpuNormalizeMode "LA" = "LA" ∧ gpuNormalizeMode "LA" ≠ "RGB" := by
  constructor
  · rfl
  · decide

/-- **C8, amended.** In the batched converter, `optimize_image` sends
every mode other than `L` — in particular the palette mode `P` and the
alpha modes `RGBA`, `LA`, `PA` — to `RGB` and keeps `L`, so every
collected page's mode is `RGB` or `L`; the GPU variant's transform
normalises only `P` and `RGBA` to `RGB` and passes any other mode (such
as `LA`) through unchanged. -/
theorem optimize_image_mode (img : PILImage) :
    (optimize_image img).mode =
      if img.mode = "P" ∨ img.mode = "RGBA" then "RGB"
      else if img.mode = "L" then "L" else "RGB" := rfl

theorem optimize_image_mode_rgb_or_l (img : PILImage) :
    ((optimize_image img).mode = "RGB" ∨ (optimize_image img).mode = "L") ∧
    (img.mode ≠ "L" → (optimize_image img).mode = "RGB") ∧
    (img.mode = "L" → (optimize_image img).mode = "L") ∧
    (∀ m : String, m = "P" ∨ m = "RGBA" → gpuNormalizeMode m = "RGB") ∧
    (∀ m : String, m ≠ "P" → m ≠ "RGBA" → gpuNormalizeMode m = m) := by
  refine ⟨?_, ?_, ?_, ?_, ?_⟩
  · rw [optimize_image_mode]
    split_ifs <;> simp
  · intro hm
    rw [optimize_image_mode]
    by_cases h1 : img.mode = "P" ∨ img.mode = "RGBA"
    · rw [if_pos h1]
    · rw [if_neg h1, if_neg hm]
  · intro hm
    rw [optimize_image_mode, hm]
    simp
  · intro m hm
    simp [gpuNormalizeMode, hm]
  · intro m h1 h2
    simp [gpuNormalizeMode, h1, h2]

/-- Witness for the amended C8: a palette-mode image is converted to RGB
by both transforms, and `optimize_image` keeps `L`. -/
theorem optimize_image_mode_rgb_or_l_witness :
    (optimize_image ⟨10, 10, "P"⟩).mode = "RGB" ∧
    (optimize_image ⟨10, 10, "L"⟩).mode = "L" ∧
    gpuNormalizeMode "P" = "RGB" ∧
    gpuNormalizeMode "CMYK" = "CMYK" :=
  ⟨(optimize_image_mode_rgb_or_l ⟨10, 10, "P"⟩).2.1 (by decide),
    (optimize_image_mode_rgb_or_l ⟨10, 10, "L"⟩).2.2.1 rfl,
    (optimize_image_mode_rgb_or_l ⟨10, 10, "P"⟩).2.2.2.1 "P" (Or.inl rfl),
    (optimize_image_mode_rgb_or_l ⟨10, 10, "P"⟩).2.2.2.2 "CMYK"
      (by decide) (by decide)⟩

/-! ## C9: the run loop -/

/-- **C9.** The only condition aborting the run is the source directory
not being a directory, and that happens before any archive is processed;
otherwise the run emits one outcome per archive — a failing archive
(unreadable, or failing to save) yields a logged `errored` event and
every other archive, in particular every subsequent one, is still
processed independently. -/
theorem run_processes_every_archive (srcIsDir : Bool)
    (archives : List ArchiveInput) :
    (srcIsDir = false →
      mainRun srcIsDir archives = .error "INPUT_DIR not a directory".data) ∧
    (srcIsDir = true →
      mainRun srcIsDir archives =
        .ok ((sortArchives archives).map processArchive) ∧
      ∀ evs, mainRun srcIsDir archives = .ok evs →
        evs.length = archives.length ∧
        ∀ (i : Nat) (hi : i < evs.length)
          (hj : i < (sortArchives archives).length),
          evs.get ⟨i, hi⟩ =
            processArchive ((sortArchives archives).get ⟨i, hj⟩)) := by
  constructor
  · intro h
    simp [mainRun, h]
  · intro h
    have hok : mainRun srcIsDir archives =
        .ok ((sortArchives archives).map processArchive) := by
      simp [mainRun, h]
    refine ⟨hok, ?_⟩
    intro evs hevs
    rw [hok] at hevs
    obtain rfl : (sortArchives archives).map processArchive = evs := by
      injection hevs
    constructor
    · rw [List.length_map]
      simp [sortArchives]
    · intro i hi hj
      simp [List.get_eq_getElem]

/-- Witness for C9: with an unreadable first archive, the second archive
is still converted; and with no source directory the run aborts. -/
theorem run_processes_every_archive_witness :
    mainRun true
        [⟨"a.cbz".data, false, ["p.png".data], (fun _ => some ⟨5, 6, "L"⟩),
          true⟩,
         ⟨"b.cbz".data, true, ["p.png".data], (fun _ => some ⟨5, 6, "L"⟩),
          true⟩] =
      .ok ((sortArchives
        [⟨"a.cbz".data, false, ["p.png".data], (fun _ => some ⟨5, 6, "L"⟩),
          true⟩,
         ⟨"b.cbz".data, true, ["p.png".data], (fun _ => some ⟨5, 6, "L"⟩),
          true⟩]).map processArchive) ∧
    mainRun false [] = .error "INPUT_DIR not a directory".data :=
  ⟨((run_processes_every_archive true
      [⟨"a.cbz".data, false, ["p.png".data], (fun _ => some ⟨5, 6, "L"⟩),
        true⟩,
       ⟨"b.cbz".data, true, ["p.png".data], (fun _ => some ⟨5, 6, "L"⟩),
        true⟩]).2 rfl).1,
    (run_processes_every_archive false []).1 rfl⟩

end CBZ
